import Mathlib

/-!
Verification development for the PyPiBox bidirectional Dropbox synchronizer.

Shallow embedding of the reconciliation core of `src/main.py` and
`src/utils.py`: the SHA-256 based Dropbox content hash, the file indices,
the reconciler (`DropboxSync._sync_action`), the delta computer
(`DropboxSync._get_modified`), the local index cache
(`DropboxSync._get_local_index`), and the appliers (`_upload_file`,
`_method_download`, `_method_delete_local`, `_method_delete_remote`).

Bytes are modelled as `Nat` values (reduced mod 256 where the code's byte
strings force it), 32-bit machine words as `Nat` with explicit `% 2^32`,
modification timestamps as `Nat` (the code only ever compares them), and
Python `dict`s as association lists with unique keys.
-/

namespace PyPiBox

/-! ### SHA-256 (model of `hashlib.sha256`, FIPS 180-4)

`utils.compute_dropbox_hash` feeds file blocks through `hashlib.sha256`;
this section is a byte-level functional model of that primitive. -/

/-- 2^32, the modulus for 32-bit words. -/
def w32 : Nat := 4294967296

/-- Rotate a 32-bit word right by `n`. -/
def rotr (n x : Nat) : Nat := ((x >>> n) ||| (x <<< (32 - n))) % w32

def ssig0 (x : Nat) : Nat := (rotr 7 x) ^^^ (rotr 18 x) ^^^ (x >>> 3)

def ssig1 (x : Nat) : Nat := (rotr 17 x) ^^^ (rotr 19 x) ^^^ (x >>> 10)

def bsig0 (x : Nat) : Nat := (rotr 2 x) ^^^ (rotr 13 x) ^^^ (rotr 22 x)

def bsig1 (x : Nat) : Nat := (rotr 6 x) ^^^ (rotr 11 x) ^^^ (rotr 25 x)

def chf (x y z : Nat) : Nat := (x &&& y) ^^^ ((x ^^^ 4294967295) &&& z)

def majf (x y z : Nat) : Nat := (x &&& y) ^^^ (x &&& z) ^^^ (y &&& z)

/-- The 64 SHA-256 round constants (FIPS 180-4 §4.2.2, in decimal). -/
def K256 : List Nat :=
  [1116352408, 1899447441, 3049323471, 3921009573,
   961987163, 1508970993, 2453635748, 2870763221,
   3624381080, 310598401, 607225278, 1426881987,
   1925078388, 2162078206, 2614888103, 3248222580,
   3835390401, 4022224774, 264347078, 604807628,
   770255983, 1249150122, 1555081692, 1996064986,
   2554220882, 2821834349, 2952996808, 3210313671,
   3336571891, 3584528711, 113926993, 338241895,
   666307205, 773529912, 1294757372, 1396182291,
   1695183700, 1986661051, 2177026350, 2456956037,
   2730485921, 2820302411, 3259730800, 3345764771,
   3516065817, 3600352804, 4094571909, 275423344,
   430227734, 506948616, 659060556, 883997877,
   958139571, 1322822218, 1537002063, 1747873779,
   1955562222, 2024104815, 2227730452, 2361852424,
   2428436474, 2756734187, 3204031479, 3329325298]

/-- The SHA-256 working state: eight 32-bit words. -/
structure Hash8 where
  a : Nat
  b : Nat
  c : Nat
  d : Nat
  e : Nat
  f : Nat
  g : Nat
  h : Nat
deriving DecidableEq, Repr

/-- The SHA-256 initial state (FIPS 180-4 §5.3.3, in decimal). -/
def sha256init : Hash8 :=
  ⟨1779033703, 3144134277, 1013904242, 2773480762,
   1359893119, 2600822924, 528734635, 1541459225⟩

/-- Big-endian byte decomposition of `v` into `n` bytes (most significant first). -/
def bytesBE : Nat → Nat → List Nat
  | 0, _ => []
  | n + 1, v => bytesBE n (v / 256) ++ [v % 256]

/-- Pack consecutive groups of four bytes into big-endian 32-bit words. -/
def wordsOf : List Nat → List Nat
  | b0 :: b1 :: b2 :: b3 :: rest => (((b0 * 256 + b1) * 256 + b2) * 256 + b3) :: wordsOf rest
  | _ => []

/-- Extend the 16 message-schedule words by `n` further words. -/
def extendLoop : List Nat → Nat → List Nat
  | ws, 0 => ws
  | ws, n + 1 =>
    let t := ws.length
    extendLoop
      (ws ++ [(ssig1 (ws.getD (t - 2) 0) + ws.getD (t - 7) 0 +
               ssig0 (ws.getD (t - 15) 0) + ws.getD (t - 16) 0) % w32]) n

/-- One SHA-256 round on the working state, given `(k, w)`. -/
def roundStep (st : Hash8) (kw : Nat × Nat) : Hash8 :=
  let t1 := (st.h + bsig1 st.e + chf st.e st.f st.g + kw.1 + kw.2) % w32
  let t2 := (bsig0 st.a + majf st.a st.b st.c) % w32
  ⟨(t1 + t2) % w32, st.a, st.b, st.c, (st.d + t1) % w32, st.e, st.f, st.g⟩

/-- Compress one 64-byte block into the state. -/
def compressBlock (st : Hash8) (block : List Nat) : Hash8 :=
  let ws := extendLoop (wordsOf block) 48
  let r := (K256.zip ws).foldl roundStep st
  ⟨(st.a + r.a) % w32, (st.b + r.b) % w32, (st.c + r.c) % w32, (st.d + r.d) % w32,
   (st.e + r.e) % w32, (st.f + r.f) % w32, (st.g + r.g) % w32, (st.h + r.h) % w32⟩

/-- Split a list into consecutive chunks of `m + 1` elements (last chunk may be
short).  Models both the `f.read(chunk_size)` loops and the slicing
`file_entries[i:i + max_batch_size]` of the Python code.  `fuel` bounds the
number of produced chunks; every call supplies `fuel ≥ l.length`, which is
always enough, so the `fuel = 0` fallback is unreachable. -/
def chunksFuel {α : Type} (m : Nat) : Nat → List α → List (List α)
  | _, [] => []
  | 0, _ :: _ => []
  | fuel + 1, x :: xs => (x :: xs).take (m + 1) :: chunksFuel m fuel (xs.drop m)

/-- Split a list into consecutive chunks of `n` elements (`n ≥ 1`). -/
def chunks {α : Type} (n : Nat) (l : List α) : List (List α) := chunksFuel (n - 1) l.length l

/-- SHA-256 padding: append `0x80`, zeros, and the 64-bit big-endian bit length. -/
def sha256pad (msg : List Nat) : List Nat :=
  msg ++ 128 :: (List.replicate ((119 - msg.length % 64) % 64) 0 ++ bytesBE 8 (8 * msg.length))

/-- The eight words of the state in order. -/
def hash8List (st : Hash8) : List Nat := [st.a, st.b, st.c, st.d, st.e, st.f, st.g, st.h]

/-- SHA-256 of a byte list, as a 32-byte digest (model of
`hashlib.sha256(data).digest()`): big-endian bytes of the final eight state
words. -/
def sha256 (msg : List Nat) : List Nat :=
  ((hash8List ((chunks 64 (sha256pad msg)).foldl compressBlock sha256init)).map
    (bytesBE 4)).flatten

/-- Lowercase hexadecimal digit for `n < 16`. -/
def hexChar (n : Nat) : Char := if n < 10 then Char.ofNat (48 + n) else Char.ofNat (87 + n)

/-- Lowercase hex rendering of a byte list (model of `.hexdigest()`). -/
def toHex (bytes : List Nat) : String :=
  ⟨(bytes.map (fun b => [hexChar (b / 16), hexChar (b % 16)])).flatten⟩

/-- Model of `utils.compute_dropbox_hash`: SHA-256 every consecutive 4 MiB block
of the content, concatenate the 32-byte digests, SHA-256 the concatenation and
render as lowercase hex. -/
def compute_dropbox_hash (content : List Nat) : String :=
  toHex (sha256 (((chunks 4194304 content).map sha256).flatten))

/-- The 32-byte digest underlying `compute_dropbox_hash` (before hex
rendering): SHA-256 of the concatenated per-block digests. -/
def dropboxDigest (content : List Nat) : List Nat :=
  sha256 (((chunks 4194304 content).map sha256).flatten)

/-! ### Entry data model (model of `utils.FileInfo` and its getters)

Timestamps are `Nat` (the code only compares them); the getters reproduce the
`FileInfo` guards: folders report hash `None`, size `0` and timestamp `0`. -/

structure FileInfo where
  posixPath : String
  isFolder : Bool
  rawSize : Nat
  rawMtime : Nat
  rawHash : String
deriving DecidableEq, Repr

/-- `FileInfo.get_dropbox_hash`: `None` for folders. -/
def FileInfo.getDropboxHash (fi : FileInfo) : Option String :=
  if fi.isFolder then none else some fi.rawHash

/-- `FileInfo.get_size`: `0` for folders. -/
def FileInfo.getSize (fi : FileInfo) : Nat :=
  if fi.isFolder then 0 else fi.rawSize

/-- `FileInfo.get_modified_timestamp`: `0.` for folders. -/
def FileInfo.getModifiedTimestamp (fi : FileInfo) : Nat :=
  if fi.isFolder then 0 else fi.rawMtime

/-! ### Indices as association lists (model of Python `dict`) -/

/-- `d.get(p)` on an association list. -/
def alookup {α : Type} : List (String × α) → String → Option α
  | [], _ => none
  | (q, v) :: rest, p => if q = p then some v else alookup rest p

/-- `d[p] = v`: overwrite the existing binding or append a new one. -/
def ainsert {α : Type} : List (String × α) → String → α → List (String × α)
  | [], p, v => [(p, v)]
  | (q, w) :: rest, p, v => if q = p then (p, v) :: rest else (q, w) :: ainsert rest p v

/-- `d.pop(p, None)`: drop the binding at `p` if present. -/
def aerase {α : Type} : List (String × α) → String → List (String × α)
  | [], _ => []
  | (q, w) :: rest, p => if q = p then rest else (q, w) :: aerase rest p

abbrev Index := List (String × FileInfo)

inductive SyncAction where
  | add
  | del
deriving DecidableEq, Repr

/-! ### Reconciler (model of `DropboxSync._sync_action`) -/

/-- One iteration of the `for each_path, src_file in source_changes.items()`
loop of `_sync_action`.  The state is `(action_cache, index_dst)`. -/
def syncStep (method : SyncAction) (st : Index × Index) (pe : String × FileInfo) :
    Index × Index :=
  match alookup st.2 pe.1 with
  | none =>
    match method with
    | .add => (ainsert st.1 pe.1 pe.2, ainsert st.2 pe.1 pe.2)
    | .del => st
  | some dstFile =>
    match method with
    | .add =>
      if pe.2.isFolder then st
      else if dstFile.getModifiedTimestamp < pe.2.getModifiedTimestamp ∧
          (dstFile.getSize ≠ pe.2.getSize ∨ dstFile.getDropboxHash ≠ pe.2.getDropboxHash) then
        (ainsert st.1 pe.1 pe.2, ainsert st.2 pe.1 pe.2)
      else st
    | .del =>
      if pe.2.getModifiedTimestamp ≥ dstFile.getModifiedTimestamp ∧
          dstFile.getDropboxHash = pe.2.getDropboxHash then
        (ainsert st.1 pe.1 pe.2, aerase st.2 pe.1)
      else st

/-- The classification loop of `_sync_action`: fold `syncStep` over the change
set starting from an empty `action_cache`, returning
`(action_cache, mutated index_dst)`. -/
def syncActionFold (method : SyncAction) (changes : Index) (dst : Index) : Index × Index :=
  changes.foldl (syncStep method) ([], dst)

/-! ### Delta computer (model of `DropboxSync._get_modified` and the removal
comprehensions in `DropboxSync.sync`) -/

/-- `_get_modified`: entries of `cur` whose path is absent from `last` or whose
prior timestamp is strictly smaller. -/
def getModified (cur last : Index) : Index :=
  cur.filter fun pe =>
    match alookup last pe.1 with
    | none => true
    | some lastE => decide (lastE.getModifiedTimestamp < pe.2.getModifiedTimestamp)

/-- The `*_removed` comprehension in `sync`: entries of `last` whose path is
absent from `cur`. -/
def removedOf (cur last : Index) : Index :=
  last.filter fun pe => (alookup cur pe.1).isNone

/-! ### Local indexer (model of `DropboxSync._get_local_index`) -/

/-- A node as the filesystem walk observes it: kind, stat mtime (rounded),
stat size and, for files, the byte content. -/
structure LiveNode where
  isFolder : Bool
  mtime : Nat
  size : Nat
  content : List Nat
deriving DecidableEq, Repr

/-- A freshly constructed `LocalFile` for a walked path: live kind, size and
mtime; the content hash the lazy accessor would produce. -/
def freshEntry (p : String) (ln : LiveNode) : FileInfo :=
  ⟨p, ln.isFolder, ln.size, ln.mtime, compute_dropbox_hash ln.content⟩

/-- The entry `_get_local_index` stores for one walked path: the cached prior
entry when its getter `(mtime, size)` equals the live stat values, otherwise a
fresh `LocalFile`. -/
def localEntry (last : Index) (p : String) (ln : LiveNode) : FileInfo :=
  match alookup last p with
  | some cached =>
    if cached.getModifiedTimestamp = ln.mtime ∧ cached.getSize = ln.size then cached
    else freshEntry p ln
  | none => freshEntry p ln

/-- `_get_local_index`: for each walked path reuse the prior entry verbatim
when its getter `(mtime, size)` equals the live stat values, otherwise build a
fresh entry. -/
def getLocalIndex (last : Index) (live : List (String × LiveNode)) : Index :=
  live.map fun pl => (pl.1, localEntry last pl.1 pl.2)

/-! ### Download applier (model of the file loop of
`DropboxSync._method_download`) -/

/-- A local file as the download applier sees it on disk. -/
structure LiveFile where
  content : List Nat
  mtime : Nat
deriving DecidableEq, Repr

/-- One iteration of the file loop of `_method_download` at path `p` for the
staged remote entry `expected` whose content is `remoteContent`.  `now` is the
mtime the filesystem assigns to the file written by
`files_download_to_file`. -/
def downloadStep (fs : List (String × LiveFile)) (now : Nat) (p : String)
    (expected : FileInfo) (remoteContent : List Nat) : List (String × LiveFile) :=
  match alookup fs p with
  | some lf =>
    if lf.mtime ≥ expected.getModifiedTimestamp ∨
        some (compute_dropbox_hash lf.content) = expected.getDropboxHash then fs
    else ainsert fs p ⟨remoteContent, now⟩
  | none => ainsert fs p ⟨remoteContent, now⟩

/-! ### Delete-local applier (model of the file loop of
`DropboxSync._method_delete_local`) -/

/-- Whether the file loop of `_method_delete_local` unlinks the file at a path
whose live stat is `(liveSize, liveMtime)` when the staged entry is
`expected`: it skips as a conflict iff the live size differs or the expected
timestamp is strictly smaller than the live one. -/
def deleteLocalDeletes (liveSize liveMtime : Nat) (expected : FileInfo) : Bool :=
  if liveSize ≠ expected.getSize ∨ expected.getModifiedTimestamp < liveMtime then false
  else true

/-! ### Upload applier (model of `DropboxSync._upload_file`) -/

inductive UploadEvent where
  | single (path : String) (size : Nat) (overwrite : Bool)
  | sessionStart (size : Nat)
  | sessionAppend (offset size : Nat)
  | sessionFinish (offset size : Nat) (path : String) (overwrite : Bool)
deriving DecidableEq, Repr

/-- The `while (byte_position := file.tell()) < file_size` loop of
`_upload_file`.  `pos` is the file position after the previous read; `fuel`
bounds the iteration count (every call supplies `fuel ≥ size - pos`, always
enough, so the `fuel = 0` fallback is unreachable). -/
def uploadLoop (path : String) (size : Nat) : Nat → Nat → List UploadEvent
  | 0, _ => []
  | fuel + 1, pos =>
    if pos < size then
      let chunk := min 8388608 (size - pos)
      if pos + chunk < size then
        .sessionAppend pos chunk :: uploadLoop path size fuel (pos + chunk)
      else
        [.sessionFinish pos chunk path true]
    else []

/-- The RPC trace `_upload_file` emits for a file of `size` bytes: one
single-shot overwrite upload below 8 MiB, else a chunked session. -/
def uploadFileEvents (path : String) (size : Nat) : List UploadEvent :=
  if size < 8388608 then [.single path size true]
  else .sessionStart (min 8388608 size) :: uploadLoop path size size (min 8388608 size)

/-! ### Delete-remote applier (model of `DropboxSync._method_delete_remote`,
`_get_files_to_delete_remotely`, `_get_folders_to_delete_remotely` and
`_delete_batch`).  The remote store is abstracted as `rs : String → Option
FileInfo`, the result of `_get_remote_file` per path. -/

/-- `utils.depth`: the number of `/` characters of the POSIX string. -/
def depthS (p : String) : Nat := p.data.count '/'

/-- `posix.startswith(d)`. -/
def pCovers (d p : String) : Bool := d.data.isPrefixOf p.data

/-- `_get_files_to_delete_remotely`: keep file paths whose remote counterpart
exists, is a file, content-hash-matches, and is not strictly newer. -/
def filesToDelete (rs : String → Option FileInfo) : Index → List String
  | [] => []
  | (p, e) :: rest =>
    if e.isFolder then filesToDelete rs rest
    else
      match rs p with
      | none => filesToDelete rs rest
      | some rf =>
        if rf.isFolder then filesToDelete rs rest
        else if rf.getDropboxHash ≠ e.getDropboxHash ∨
            e.getModifiedTimestamp < rf.getModifiedTimestamp then
          filesToDelete rs rest
        else p :: filesToDelete rs rest

/-- The folder loop of `_get_folders_to_delete_remotely` after sorting:
`deleted` is the set of already-queued folder POSIX strings. -/
def foldersFold (rs : String → Option FileInfo) : Index → List String → List String
  | [], _ => []
  | (p, e) :: rest, deleted =>
    match rs p with
    | none => foldersFold rs rest deleted
    | some rf =>
      if !rf.isFolder then foldersFold rs rest deleted
      else if e.getModifiedTimestamp < rf.getModifiedTimestamp then foldersFold rs rest deleted
      else if deleted.any (fun d => pCovers d p) then foldersFold rs rest deleted
      else p :: foldersFold rs rest (p :: deleted)

/-- The ordering used by `folders.sort(key=lambda x: depth(x[0]))`. -/
def folderOrder (x y : String × FileInfo) : Prop := depthS x.1 ≤ depthS y.1

instance : DecidableRel folderOrder := fun _ _ => Nat.decLe _ _

instance : IsTotal (String × FileInfo) folderOrder := ⟨fun _ _ => Nat.le_total _ _⟩

instance : IsTrans (String × FileInfo) folderOrder := ⟨fun _ _ _ => Nat.le_trans⟩

/-- `_get_folders_to_delete_remotely`: sort by ascending depth, then elide
prefix-covered folders. -/
def foldersToDelete (rs : String → Option FileInfo) (folders : Index) : List String :=
  foldersFold rs (List.insertionSort folderOrder folders) []

/-- `_method_delete_remote`: the sequence of `files_delete_batch` argument
lists it issues, file batches first, then folder batches, each batch at most
1000 entries (`_delete_batch`). -/
def methodDeleteRemote (rs : String → Option FileInfo) (idx : Index) : List (List String) :=
  if idx.length < 1 then []
  else
    chunks 1000 (filesToDelete rs (idx.filter fun pe => !pe.2.isFolder)) ++
    chunks 1000 (foldersToDelete rs (idx.filter fun pe => pe.2.isFolder))

/-! ### One sync pass (model of `DropboxSync.sync` after both indices have
been scanned) -/

structure PassResult where
  newLastLocal : Index
  newLastRemote : Index
  upAddInvoked : Bool
  upDelInvoked : Bool
  downAddInvoked : Bool
  downDelInvoked : Bool
  upAddCache : Index
  upDelCache : Index
  downAddCache : Index
  downDelCache : Index
deriving Repr

/-- `DropboxSync.sync` from the point where `local_index` and `remote_index`
have been scanned: compute the four change sets, run the four `_sync_action`
phases in order (upward phases receive `self.debug`, downward phases `False`;
an applier is invoked exactly when its `debug` argument is false), and snapshot
the mutated indices. -/
def syncPass (localIdx remoteIdx lastLocal lastRemote : Index) (debug : Bool) : PassResult :=
  let locallyModified := getModified localIdx lastLocal
  let locallyRemoved := removedOf localIdx lastLocal
  let remotelyModified := getModified remoteIdx lastRemote
  let remotelyRemoved := removedOf remoteIdx lastRemote
  let up1 := syncActionFold .add locallyModified remoteIdx
  let up2 := syncActionFold .del locallyRemoved up1.2
  let down1 := syncActionFold .add remotelyModified localIdx
  let down2 := syncActionFold .del remotelyRemoved down1.2
  ⟨down2.2, up2.2, !debug, !debug, true, true, up1.1, up2.1, down1.1, down2.1⟩

/-! ### Helpers for the hash collision argument -/

/-- The digest of the Dropbox hash construction, viewed as a function into the
finite type `Fin 32 → Fin 256` (each digest byte reduced mod 256, which is the
identity on actual digests). -/
def digestFun (content : List Nat) : Fin 32 → Fin 256 :=
  fun i => ⟨(dropboxDigest content).getD i 0 % 256, Nat.mod_lt _ (by norm_num)⟩

/-- A tuple of 33 bytes as a byte list. -/
def tupleBytes (v : Fin 33 → Fin 256) : List Nat := List.ofFn fun i => (v i).val

/-! ## Association-list lemmas -/

theorem alookup_eq_none {α : Type} (l : List (String × α)) (p : String) :
    alookup l p = none ↔ p ∉ l.map Prod.fst := by
  induction l with
  | nil => simp [alookup]
  | cons qv rest ih =>
    obtain ⟨q, v⟩ := qv
    simp only [alookup, List.map_cons, List.mem_cons]
    by_cases h : q = p
    · subst h; simp
    · rw [if_neg h, ih]
      simp [not_or, Ne.symm h]

theorem alookup_ainsert_self {α : Type} (l : List (String × α)) (p : String) (v : α) :
    alookup (ainsert l p v) p = some v := by
  induction l with
  | nil => simp [ainsert, alookup]
  | cons qw rest ih =>
    obtain ⟨q, w⟩ := qw
    by_cases h : q = p <;> simp [ainsert, alookup, h, ih]

theorem alookup_ainsert_ne {α : Type} (l : List (String × α)) {p q : String} (v : α)
    (h : q ≠ p) : alookup (ainsert l q v) p = alookup l p := by
  induction l with
  | nil => simp [ainsert, alookup, h]
  | cons rw rest ih =>
    obtain ⟨r, w⟩ := rw
    by_cases hr : r = q
    · subst hr; simp [ainsert, alookup, h]
    · simp [ainsert, hr, alookup, ih]

theorem alookup_aerase_ne {α : Type} (l : List (String × α)) {p q : String}
    (h : q ≠ p) : alookup (aerase l q) p = alookup l p := by
  induction l with
  | nil => simp [aerase]
  | cons rw rest ih =>
    obtain ⟨r, w⟩ := rw
    by_cases hr : r = q
    · subst hr; simp [aerase, alookup, h]
    · simp [aerase, hr, alookup, ih]

theorem alookup_filter {α : Type} (l : List (String × α)) (f : String × α → Bool)
    (p : String) (hnd : (l.map Prod.fst).Nodup) :
    alookup (l.filter f) p =
      match alookup l p with
      | some v => if f (p, v) then some v else none
      | none => none := by
  induction l with
  | nil => simp [alookup]
  | cons qv rest ih =>
    obtain ⟨q, v⟩ := qv
    simp only [List.map_cons, List.nodup_cons] at hnd
    obtain ⟨hq, hrest⟩ := hnd
    by_cases h : q = p
    · subst h
      have hnone : alookup (List.filter f rest) q = none := by
        rw [alookup_eq_none]
        intro hmem
        obtain ⟨pair, hpair, hfst⟩ := List.mem_map.mp hmem
        exact hq (List.mem_map.mpr ⟨pair, (List.mem_filter.mp hpair).1, hfst⟩)
      rw [List.filter_cons]
      by_cases hf : f (q, v) <;> simp [alookup, hf, hnone]
    · rw [List.filter_cons]
      by_cases hf : f (q, v) <;> simp [alookup, h, hf, ih hrest]

/-! ## C1: the ADD reconciliation step -/

/-- C1: for an ADD reconciliation step on source entry `src` at path `p` with
destination index `D`: absent destination stages and records `src`; two
folders at the same path are skipped; a strictly newer source with differing
content (size or hash) stages and overwrites the destination index; every
other case is a conflict-skip that stages nothing and leaves `D` unchanged. -/
theorem syncStep_add_spec (p : String) (src : FileInfo) (cache D : Index) :
    (alookup D p = none →
      syncStep .add (cache, D) (p, src) = (ainsert cache p src, ainsert D p src)) ∧
    (∀ d, alookup D p = some d → src.isFolder = true → d.isFolder = true →
      syncStep .add (cache, D) (p, src) = (cache, D)) ∧
    (∀ d, alookup D p = some d →
      d.getModifiedTimestamp < src.getModifiedTimestamp →
      (d.getSize ≠ src.getSize ∨ d.getDropboxHash ≠ src.getDropboxHash) →
      syncStep .add (cache, D) (p, src) = (ainsert cache p src, ainsert D p src)) ∧
    (∀ d, alookup D p = some d →
      ¬(src.isFolder = true ∧ d.isFolder = true) →
      ¬(d.getModifiedTimestamp < src.getModifiedTimestamp ∧
        (d.getSize ≠ src.getSize ∨ d.getDropboxHash ≠ src.getDropboxHash)) →
      syncStep .add (cache, D) (p, src) = (cache, D)) := by
  refine ⟨fun h => by simp [syncStep, h], fun d hd hsrc _ => by simp [syncStep, hd, hsrc],
    ?_, ?_⟩
  · intro d hd hlt hdiff
    have hf : src.isFolder = false := by
      by_contra hf
      rw [Bool.not_eq_false] at hf
      rw [show src.getModifiedTimestamp = 0 by
        simp [FileInfo.getModifiedTimestamp, hf]] at hlt
      exact Nat.not_lt_zero _ hlt
    simp only [syncStep, hd, hf, Bool.false_eq_true, if_false]
    rw [if_pos ⟨hlt, hdiff⟩]
  · intro d hd _ hncond
    by_cases hf : src.isFolder
    · simp [syncStep, hd, hf]
    · simp only [syncStep, hd, Bool.not_eq_true] at *
      simp only [hf, Bool.false_eq_true, if_false]
      rw [if_neg hncond]

/-- C1 witness: a concrete ADD step with an absent destination stages the
entry and records it in the destination index. -/
theorem syncStep_add_spec_witness :
    syncStep .add ([], []) ("a.txt", ⟨"a.txt", false, 5, 10, "h1"⟩) =
      (ainsert [] "a.txt" ⟨"a.txt", false, 5, 10, "h1"⟩,
       ainsert [] "a.txt" ⟨"a.txt", false, 5, 10, "h1"⟩) :=
  (syncStep_add_spec "a.txt" ⟨"a.txt", false, 5, 10, "h1"⟩ [] []).1 rfl

/-! ## C2: the DEL reconciliation step -/

/-- C2: for a DEL reconciliation step on source entry `src` at path `p` with
destination index `D`: an absent destination stages nothing; a destination
with equal content hash that is not newer than the source is staged for
deletion and removed from `D`; every other case is a conflict-skip that
stages nothing and leaves `D` unchanged. -/
theorem syncStep_del_spec (p : String) (src : FileInfo) (cache D : Index) :
    (alookup D p = none → syncStep .del (cache, D) (p, src) = (cache, D)) ∧
    (∀ d, alookup D p = some d →
      d.getDropboxHash = src.getDropboxHash →
      src.getModifiedTimestamp ≥ d.getModifiedTimestamp →
      syncStep .del (cache, D) (p, src) = (ainsert cache p src, aerase D p)) ∧
    (∀ d, alookup D p = some d →
      ¬(d.getDropboxHash = src.getDropboxHash ∧
        src.getModifiedTimestamp ≥ d.getModifiedTimestamp) →
      syncStep .del (cache, D) (p, src) = (cache, D)) := by
  refine ⟨fun h => by simp [syncStep, h], ?_, ?_⟩
  · intro d hd hh hm
    simp only [syncStep, hd]
    rw [if_pos ⟨hm, hh⟩]
  · intro d hd hncond
    simp only [syncStep, hd]
    rw [if_neg fun hc => hncond ⟨hc.2, hc.1⟩]

/-- C2 witness: a concrete DEL step on a content-equal, not-newer destination
stages the source and removes the path from the destination index. -/
theorem syncStep_del_spec_witness :
    syncStep .del ([], [("a.txt", ⟨"a.txt", false, 5, 10, "h1"⟩)])
        ("a.txt", ⟨"a.txt", false, 5, 12, "h1"⟩) =
      (ainsert [] "a.txt" ⟨"a.txt", false, 5, 12, "h1"⟩,
       aerase [("a.txt", ⟨"a.txt", false, 5, 10, "h1"⟩)] "a.txt") :=
  (syncStep_del_spec "a.txt" ⟨"a.txt", false, 5, 12, "h1"⟩ []
      [("a.txt", ⟨"a.txt", false, 5, 10, "h1"⟩)]).2.1
    ⟨"a.txt", false, 5, 10, "h1"⟩ rfl rfl (by decide)

/-! ## C6: delete-local safety -/

/-- C6 counterexample: with live stat `(size 5, mtime 10)` and expected entry
`(size 5, mtime 20)` the code deletes the file although the live mtime differs
from the expected one, so "removed only if live mtime equals e.mtime" fails. -/
theorem deleteLocal_cex :
    ¬ (deleteLocalDeletes 5 10 ⟨"f.txt", false, 5, 20, "h1"⟩ = true →
       10 = FileInfo.getModifiedTimestamp ⟨"f.txt", false, 5, 20, "h1"⟩) := by decide

/-- C6 amended: the delete-local file loop removes the file iff the live size
equals the expected size and the live mtime is not strictly newer than the
expected mtime (live mtime ≤ expected mtime); any size difference or a
strictly newer live mtime is a conflict-skip. -/
theorem deleteLocal_safety (liveSize liveMtime : Nat) (e : FileInfo) :
    deleteLocalDeletes liveSize liveMtime e = true ↔
      liveSize = e.getSize ∧ liveMtime ≤ e.getModifiedTimestamp := by
  by_cases h1 : liveSize = e.getSize <;>
    by_cases h2 : e.getModifiedTimestamp < liveMtime <;>
      (simp [deleteLocalDeletes, h1, h2]; try omega)

/-! ## C7: upload chunking -/

/-- C7: the 20 MiB file produces exactly the chunked trace the claim expects,
but a file of exactly 8 MiB enters the chunked path, emits `session_start`
with the whole file and then exits the loop without ever calling
`session_finish`, so the upload is never committed. -/
theorem uploadFile_trace :
    uploadFileEvents "big.bin" 20971520 =
      [.sessionStart 8388608, .sessionAppend 8388608 8388608,
       .sessionFinish 16777216 4194304 "big.bin" true] ∧
    uploadFileEvents "big.bin" 8388608 = [.sessionStart 8388608] := by decide

/-! ## C5: the download applier -/

/-- C5 counterexample: downloading `c.txt` (remote mtime 50) onto an empty
local tree at wall-clock write time 100 leaves a local file whose mtime is the
write time, not the remote entry's mtime, so "afterwards the local mtime of p
equals the remote entry's server_modified time" fails. -/
theorem download_cex :
    alookup (downloadStep [] 100 "c.txt" ⟨"c.txt", false, 5, 50, "hr"⟩ [1, 2, 3]) "c.txt" =
      some ⟨[1, 2, 3], 100⟩ ∧
    ¬ (LiveFile.mtime ⟨[1, 2, 3], 100⟩ =
       FileInfo.getModifiedTimestamp ⟨"c.txt", false, 5, 50, "hr"⟩) := by
  constructor
  · rfl
  · decide

/-- C5 amended: a staged file download skips as a conflict (local tree
unchanged) when a local file exists with identical content hash or with mtime
not smaller than the remote entry's; otherwise the remote content is written
to the path and the resulting local mtime is the filesystem write time `now`
(the code never sets it to the remote entry's server_modified). -/
theorem download_spec (fs : List (String × LiveFile)) (now : Nat) (p : String)
    (e : FileInfo) (rc : List Nat) :
    (∀ lf, alookup fs p = some lf →
      (some (compute_dropbox_hash lf.content) = e.getDropboxHash ∨
       lf.mtime ≥ e.getModifiedTimestamp) →
      downloadStep fs now p e rc = fs) ∧
    (alookup fs p = none →
      alookup (downloadStep fs now p e rc) p = some ⟨rc, now⟩) ∧
    (∀ lf, alookup fs p = some lf →
      ¬(some (compute_dropbox_hash lf.content) = e.getDropboxHash ∨
        lf.mtime ≥ e.getModifiedTimestamp) →
      alookup (downloadStep fs now p e rc) p = some ⟨rc, now⟩) := by
  refine ⟨?_, ?_, ?_⟩
  · intro lf hlf hcond
    simp only [downloadStep, hlf]
    rw [if_pos (Or.symm hcond)]
  · intro h
    simp only [downloadStep, h]
    exact alookup_ainsert_self fs p _
  · intro lf hlf hcond
    simp only [downloadStep, hlf]
    rw [if_neg fun hc => hcond (Or.symm hc)]
    exact alookup_ainsert_self fs p _

/-- C5 witness: downloading onto an empty tree writes the remote content with
the write-time mtime. -/
theorem download_spec_witness :
    alookup (downloadStep [] 7 "x.txt" ⟨"x.txt", false, 1, 3, "hx"⟩ [9]) "x.txt" =
      some ⟨[9], 7⟩ :=
  (download_spec [] 7 "x.txt" ⟨"x.txt", false, 1, 3, "hx"⟩ [9]).2.1 rfl

/-! ## C4: the delta computer -/

/-- C4: `modified` contains exactly the current entries whose path is new or
strictly newer than the prior snapshot entry; `removed` contains exactly the
prior entries whose path disappeared; an entry with unchanged mtime never
enters `modified`. -/
theorem delta_spec (cur last : Index) (p : String)
    (hcur : (cur.map Prod.fst).Nodup) (hlast : (last.map Prod.fst).Nodup) :
    (∀ e, alookup (getModified cur last) p = some e ↔
      (alookup cur p = some e ∧
        (alookup last p = none ∨
         ∃ le, alookup last p = some le ∧
           le.getModifiedTimestamp < e.getModifiedTimestamp))) ∧
    (∀ e, alookup (removedOf cur last) p = some e ↔
      (alookup last p = some e ∧ alookup cur p = none)) ∧
    (∀ e le, alookup cur p = some e → alookup last p = some le →
      le.getModifiedTimestamp = e.getModifiedTimestamp →
      alookup (getModified cur last) p = none) := by
  refine ⟨?_, ?_, ?_⟩
  · intro e
    rw [getModified, alookup_filter cur _ p hcur]
    cases hc : alookup cur p with
    | none => simp
    | some v =>
      cases hl : alookup last p with
      | none => simp [hl]
      | some le =>
        by_cases hlt : le.getModifiedTimestamp < v.getModifiedTimestamp
        · simp only [hl, hlt, decide_eq_true_eq, if_pos, Option.some.injEq,
            Option.some_ne_none, false_or, decide_True]
          constructor
          · rintro rfl
            exact ⟨rfl, le, rfl, hlt⟩
          · rintro ⟨rfl, _⟩
            rfl
        · simp only [hl, hlt, decide_False, Bool.false_eq_true, if_false,
            Option.some.injEq, Option.some_ne_none, false_or]
          constructor
          · rintro ⟨⟩
          · rintro ⟨rfl, le', rfl, hlt'⟩
            exact absurd hlt' hlt
  · intro e
    rw [removedOf, alookup_filter last _ p hlast]
    cases hl : alookup last p with
    | none => simp
    | some v => cases hc : alookup cur p <;> simp [hc, eq_comm]
  · intro e le hc hl hmt
    rw [getModified, alookup_filter cur _ p hcur, hc]
    simp [hl, hmt]

/-- C4 witness: a concrete pair of indices where one path is new, one is
newer, one is unchanged and one was removed. -/
theorem delta_spec_witness :
    alookup (getModified
        [("new", ⟨"new", false, 1, 5, "hn"⟩), ("old", ⟨"old", false, 1, 5, "ho"⟩)]
        [("old", ⟨"old", false, 1, 5, "ho"⟩), ("gone", ⟨"gone", false, 1, 5, "hg"⟩)])
      "old" = none :=
  (delta_spec
      [("new", ⟨"new", false, 1, 5, "hn"⟩), ("old", ⟨"old", false, 1, 5, "ho"⟩)]
      [("old", ⟨"old", false, 1, 5, "ho"⟩), ("gone", ⟨"gone", false, 1, 5, "hg"⟩)]
      "old" (by decide) (by decide)).2.2
    ⟨"old", false, 1, 5, "ho"⟩ ⟨"old", false, 1, 5, "ho"⟩ rfl rfl rfl

/-! ## Lemmas about the local indexer and the reconciler fold -/

theorem getLocalIndex_keys (last : Index) (live : List (String × LiveNode)) :
    (getLocalIndex last live).map Prod.fst = live.map Prod.fst := by
  induction live with
  | nil => rfl
  | cons pl rest ih =>
    simp only [getLocalIndex, List.map_cons] at ih ⊢
    rw [ih]

theorem alookup_getLocalIndex (last : Index) (live : List (String × LiveNode)) (p : String) :
    alookup (getLocalIndex last live) p = (alookup live p).map (localEntry last p) := by
  induction live with
  | nil => rfl
  | cons pl rest ih =>
    obtain ⟨q, ln⟩ := pl
    by_cases h : q = p
    · subst h; simp [getLocalIndex, alookup]
    · simpa [getLocalIndex, alookup, h] using ih

theorem localEntry_reuse (last : Index) (p : String) (ln : LiveNode) (c : FileInfo)
    (hc : alookup last p = some c)
    (hmt : c.getModifiedTimestamp = ln.mtime) (hsz : c.getSize = ln.size) :
    localEntry last p ln = c := by
  simp [localEntry, hc, hmt, hsz]

theorem syncStep_cache_shape (m : SyncAction) (st : Index × Index) (pe : String × FileInfo) :
    (syncStep m st pe).1 = st.1 ∨ (syncStep m st pe).1 = ainsert st.1 pe.1 pe.2 := by
  cases h : alookup st.2 pe.1 <;> cases m <;>
    simp only [syncStep, h] <;> (try split) <;> (try split) <;> simp

theorem syncStep_dst_shape (m : SyncAction) (st : Index × Index) (pe : String × FileInfo) :
    (syncStep m st pe).2 = st.2 ∨ (syncStep m st pe).2 = ainsert st.2 pe.1 pe.2 ∨
      (syncStep m st pe).2 = aerase st.2 pe.1 := by
  cases h : alookup st.2 pe.1 <;> cases m <;>
    simp only [syncStep, h] <;> (try split) <;> (try split) <;> simp

theorem syncFold_cache_none (m : SyncAction) (changes : Index) (cache dst : Index)
    (p : String) (hc : alookup cache p = none)
    (hp : ∀ q ∈ changes.map Prod.fst, q ≠ p) :
    alookup (changes.foldl (syncStep m) (cache, dst)).1 p = none := by
  induction changes generalizing cache dst with
  | nil => simpa [List.foldl]
  | cons pe rest ih =>
    simp only [List.foldl_cons]
    have hq : pe.1 ≠ p := hp pe.1 (by simp)
    have hcache : alookup (syncStep m (cache, dst) pe).1 p = none := by
      rcases syncStep_cache_shape m (cache, dst) pe with h | h <;> rw [h]
      · exact hc
      · rw [alookup_ainsert_ne _ _ hq]; exact hc
    have := ih (syncStep m (cache, dst) pe).1 (syncStep m (cache, dst) pe).2 hcache
      (fun q hqm => hp q (by simp [hqm]))
    simpa using this

theorem syncFold_dst_untouched (m : SyncAction) (changes : Index) (st : Index × Index)
    (p : String) (hp : ∀ q ∈ changes.map Prod.fst, q ≠ p) :
    alookup (changes.foldl (syncStep m) st).2 p = alookup st.2 p := by
  induction changes generalizing st with
  | nil => rfl
  | cons pe rest ih =>
    simp only [List.foldl_cons]
    rw [ih _ (fun q hqm => hp q (by simp [hqm]))]
    have hq : pe.1 ≠ p := hp pe.1 (by simp)
    rcases syncStep_dst_shape m st pe with h | h | h <;> rw [h]
    · exact alookup_ainsert_ne _ _ hq
    · exact alookup_aerase_ne _ hq

theorem syncStep_add_pair_shape (st : Index × Index) (pe : String × FileInfo) :
    syncStep .add st pe = st ∨
      syncStep .add st pe = (ainsert st.1 pe.1 pe.2, ainsert st.2 pe.1 pe.2) := by
  cases h : alookup st.2 pe.1 <;>
    simp only [syncStep, h] <;> (try split) <;> (try split) <;> simp

theorem syncFold_add_cache_in_dst (changes : Index) (cache dst : Index) (p : String)
    (e : FileInfo) (hinv : alookup cache p = some e → alookup dst p = some e) :
    alookup (changes.foldl (syncStep .add) (cache, dst)).1 p = some e →
    alookup (changes.foldl (syncStep .add) (cache, dst)).2 p = some e := by
  induction changes generalizing cache dst with
  | nil => exact hinv
  | cons pe rest ih =>
    simp only [List.foldl_cons]
    have hstep : alookup (syncStep .add (cache, dst) pe).1 p = some e →
        alookup (syncStep .add (cache, dst) pe).2 p = some e := by
      rcases syncStep_add_pair_shape (cache, dst) pe with h | h <;> rw [h]
      · exact hinv
      · by_cases hq : pe.1 = p
        · subst hq
          rw [alookup_ainsert_self, alookup_ainsert_self]
          exact id
        · rw [alookup_ainsert_ne _ _ hq, alookup_ainsert_ne _ _ hq]
          exact hinv
    have := ih (syncStep .add (cache, dst) pe).1 (syncStep .add (cache, dst) pe).2 hstep
    simpa using this

/-! ## C9: no spurious upload -/

/-- C9: when the live stat `(mtime, size)` at a path equals the prior local
entry's getter values, `_get_local_index` reuses the prior entry verbatim (no
rehash), the path never enters the upward modified set, and the upward ADD
phase stages nothing for it, regardless of any content hash. -/
theorem no_spurious_upload (live : List (String × LiveNode)) (last remoteIdx : Index)
    (p : String) (ln : LiveNode) (c : FileInfo)
    (hnd : (live.map Prod.fst).Nodup)
    (hlive : alookup live p = some ln)
    (hlast : alookup last p = some c)
    (hmt : c.getModifiedTimestamp = ln.mtime)
    (hsz : c.getSize = ln.size) :
    alookup (getLocalIndex last live) p = some c ∧
    alookup (getModified (getLocalIndex last live) last) p = none ∧
    alookup (syncActionFold .add (getModified (getLocalIndex last live) last) remoteIdx).1
      p = none := by
  have hcurnd : ((getLocalIndex last live).map Prod.fst).Nodup := by
    rw [getLocalIndex_keys]; exact hnd
  have hreuse : alookup (getLocalIndex last live) p = some c := by
    rw [alookup_getLocalIndex, hlive, Option.map_some']
    rw [localEntry_reuse last p ln c hlast hmt hsz]
  have hmod : alookup (getModified (getLocalIndex last live) last) p = none := by
    rw [getModified, alookup_filter _ _ p hcurnd, hreuse]
    simp [hlast]
  refine ⟨hreuse, hmod, ?_⟩
  rw [syncActionFold]
  apply syncFold_cache_none .add _ [] remoteIdx p rfl
  intro q hqm hq
  subst hq
  rw [alookup_eq_none] at hmod
  exact hmod hqm

/-- C9 witness: a concrete unchanged file is reused verbatim and stages
nothing upward. -/
theorem no_spurious_upload_witness :
    alookup (getLocalIndex [("u.txt", ⟨"u.txt", false, 4, 9, "hOld"⟩)]
        [("u.txt", ⟨false, 9, 4, [0]⟩)]) "u.txt" = some ⟨"u.txt", false, 4, 9, "hOld"⟩ :=
  (no_spurious_upload [("u.txt", ⟨false, 9, 4, [0]⟩)]
      [("u.txt", ⟨"u.txt", false, 4, 9, "hOld"⟩)] [] "u.txt"
      ⟨false, 9, 4, [0]⟩ ⟨"u.txt", false, 4, 9, "hOld"⟩
      (by decide) rfl rfl (by decide) (by decide)).1

/-! ## C10: the debug flag -/

/-- C10: with `debug = true` the upward appliers are not invoked, yet the
reconciler mutates the in-memory indices exactly as in a non-debug pass, the
end-of-pass snapshots are taken from the mutated indices (so a staged upward
ADD is recorded in the remote snapshot as if applied), and a path whose entry
survives unchanged into the new local snapshot is not restaged by the next
pass's modified set. -/
theorem syncPass_debug_frame (li ri ll lr : Index) (hnd : (li.map Prod.fst).Nodup) :
    (syncPass li ri ll lr true).upAddInvoked = false ∧
    (syncPass li ri ll lr true).upDelInvoked = false ∧
    (syncPass li ri ll lr true).newLastRemote = (syncPass li ri ll lr false).newLastRemote ∧
    (syncPass li ri ll lr true).newLastLocal = (syncPass li ri ll lr false).newLastLocal ∧
    (∀ p e, alookup (syncPass li ri ll lr true).upAddCache p = some e →
      alookup (syncPass li ri ll lr true).newLastRemote p = some e) ∧
    (∀ p e, alookup li p = some e →
      alookup (syncPass li ri ll lr true).newLastLocal p = some e →
      alookup (getModified li (syncPass li ri ll lr true).newLastLocal) p = none) := by
  refine ⟨rfl, rfl, rfl, rfl, ?_, ?_⟩
  · intro p e hce
    show alookup
      ((removedOf li ll).foldl (syncStep .del)
        ([], (syncActionFold .add (getModified li ll) ri).2)).2 p = some e
    have hce' : alookup (syncActionFold .add (getModified li ll) ri).1 p = some e := hce
    have hpmod : p ∈ (getModified li ll).map Prod.fst := by
      by_contra hpm
      have h0 := syncFold_cache_none .add (getModified li ll) [] ri p rfl
        (fun q hqm hq => hpm (hq ▸ hqm))
      rw [syncActionFold] at hce'
      rw [h0] at hce'
      cases hce'
    have hli : alookup li p ≠ none := by
      intro hnone
      rw [alookup_eq_none] at hnone
      obtain ⟨pair, hpair, hfst⟩ := List.mem_map.mp hpmod
      obtain ⟨pairin, _⟩ := List.mem_filter.mp hpair
      exact hnone (hfst ▸ List.mem_map.mpr ⟨pair, pairin, rfl⟩)
    have hnotrem : ∀ q ∈ (removedOf li ll).map Prod.fst, q ≠ p := by
      intro q hqm hq
      subst hq
      obtain ⟨pair, hpair, hfst⟩ := List.mem_map.mp hqm
      obtain ⟨_, hpred⟩ := List.mem_filter.mp hpair
      rw [hfst] at hpred
      rw [Option.isNone_iff_eq_none] at hpred
      exact hli hpred
    rw [syncFold_dst_untouched _ _ _ _ hnotrem]
    exact syncFold_add_cache_in_dst _ [] ri p e (by intro h; cases h) hce'
  · intro p e hli hnl
    rw [getModified, alookup_filter li _ p hnd, hli]
    simp [hnl]

/-- C10 witness: in a debug pass with one new local file, no upward applier is
invoked and yet the staged file is recorded in the remote snapshot. -/
theorem syncPass_debug_frame_witness :
    alookup (syncPass [("n.txt", ⟨"n.txt", false, 3, 8, "hn"⟩)] [] [] [] true).newLastRemote
      "n.txt" = some ⟨"n.txt", false, 3, 8, "hn"⟩ :=
  (syncPass_debug_frame [("n.txt", ⟨"n.txt", false, 3, 8, "hn"⟩)] [] [] []
      (by decide)).2.2.2.2.1 "n.txt" ⟨"n.txt", false, 3, 8, "hn"⟩ (by decide)

/-! ## Lemmas about chunk splitting -/

theorem chunksFuel_nil {α : Type} (m fuel : Nat) : chunksFuel m fuel ([] : List α) = [] := by
  cases fuel <;> rfl

theorem chunksFuel_flatten {α : Type} (m : Nat) :
    ∀ (fuel : Nat) (l : List α), l.length ≤ fuel → (chunksFuel m fuel l).flatten = l := by
  intro fuel
  induction fuel with
  | zero =>
    intro l hl
    cases l with
    | nil => rfl
    | cons x xs => simp at hl
  | succ fuel ih =>
    intro l hl
    cases l with
    | nil => rfl
    | cons x xs =>
      simp only [chunksFuel, List.flatten_cons]
      have hlen : (List.drop m xs).length ≤ fuel := by
        simp only [List.length_drop]
        simp only [List.length_cons] at hl
        omega
      rw [ih _ hlen]
      rw [show List.drop m xs = List.drop (m + 1) (x :: xs) from rfl]
      exact List.take_append_drop _ _

theorem chunks_flatten {α : Type} (n : Nat) (l : List α) : (chunks n l).flatten = l :=
  chunksFuel_flatten (n - 1) l.length l (Nat.le_refl _)

theorem chunksFuel_mem_length {α : Type} (m : Nat) :
    ∀ (fuel : Nat) (l : List α) (b : List α), b ∈ chunksFuel m fuel l → b.length ≤ m + 1 := by
  intro fuel
  induction fuel with
  | zero =>
    intro l b hb
    cases l <;> simp [chunksFuel] at hb
  | succ fuel ih =>
    intro l b hb
    cases l with
    | nil => simp [chunksFuel] at hb
    | cons x xs =>
      simp only [chunksFuel, List.mem_cons] at hb
      rcases hb with rfl | hb
      · rw [List.length_take]
        omega
      · exact ih _ _ hb

theorem chunksFuel_dropLast_length {α : Type} (m : Nat) :
    ∀ (fuel : Nat) (l : List α) (b : List α), l.length ≤ fuel →
      b ∈ (chunksFuel m fuel l).dropLast → b.length = m + 1 := by
  intro fuel
  induction fuel with
  | zero =>
    intro l b hl hb
    cases l with
    | nil => simp [chunksFuel] at hb
    | cons x xs => simp at hl
  | succ fuel ih =>
    intro l b hl hb
    cases l with
    | nil => simp [chunksFuel] at hb
    | cons x xs =>
      simp only [chunksFuel] at hb
      cases hrest : chunksFuel m fuel (xs.drop m) with
      | nil => rw [hrest] at hb; simp at hb
      | cons c cs =>
        rw [hrest, List.dropLast_cons₂, List.mem_cons] at hb
        have hxs : m < xs.length := by
          by_contra hxl
          have hdrop : xs.drop m = [] := List.drop_eq_nil_of_le (by omega)
          rw [hdrop, chunksFuel_nil] at hrest
          cases hrest
        rcases hb with rfl | hb
        · rw [List.length_take, List.length_cons]
          omega
        · have hlen : (List.drop m xs).length ≤ fuel := by
            simp only [List.length_drop]
            simp only [List.length_cons] at hl
            omega
          exact ih _ _ hlen (hrest ▸ hb)

/-! ## Lemmas about POSIX prefixes and depths -/

theorem isPre_exists : ∀ (l₁ l₂ : List Char), l₁.isPrefixOf l₂ = true ↔ ∃ t, l₂ = l₁ ++ t := by
  intro l₁
  induction l₁ with
  | nil => intro l₂; simp [List.isPrefixOf]
  | cons a as ih =>
    intro l₂
    cases l₂ with
    | nil => simp [List.isPrefixOf]
    | cons b bs =>
      simp only [List.isPrefixOf, Bool.and_eq_true, beq_iff_eq, ih bs, List.cons_append,
        List.cons.injEq]
      constructor
      · rintro ⟨rfl, t, rfl⟩
        exact ⟨t, rfl, rfl⟩
      · rintro ⟨t, rfl, rfl⟩
        exact ⟨rfl, t, rfl⟩

theorem pCovers_exists (d p : String) : pCovers d p = true ↔ ∃ t, p.data = d.data ++ t :=
  isPre_exists d.data p.data

theorem pCovers_slash (a b : String) (h : pCovers (a ++ "/") b = true) :
    pCovers a b = true ∧ depthS a < depthS b := by
  rw [pCovers_exists] at h
  obtain ⟨t, ht⟩ := h
  rw [String.data_append] at ht
  constructor
  · rw [pCovers_exists]
    exact ⟨'/' :: t, by simpa using ht⟩
  · rw [depthS, depthS, ht]
    simp [List.count_append, List.count_cons]

/-! ## Lemmas about the folder deletion queue -/

theorem foldersFold_sublist (rs : String → Option FileInfo) :
    ∀ (l : Index) (acc : List String),
      List.Sublist (foldersFold rs l acc) (l.map Prod.fst) := by
  intro l
  induction l with
  | nil => intro acc; simp [foldersFold]
  | cons pe rest ih =>
    intro acc
    obtain ⟨p, e⟩ := pe
    simp only [foldersFold, List.map_cons]
    cases hrs : rs p with
    | none => exact (ih acc).cons p
    | some rf =>
      by_cases h1 : rf.isFolder
      · simp only [h1, Bool.not_true, Bool.false_eq_true, if_false]
        by_cases h2 : e.getModifiedTimestamp < rf.getModifiedTimestamp
        · simp only [h2, if_true]
          exact (ih acc).cons p
        · simp only [h2, if_false]
          by_cases h3 : acc.any (fun d => pCovers d p) = true
          · simp only [h3, if_true]
            exact (ih acc).cons p
          · simp only [h3, Bool.false_eq_true, if_false]
            exact (ih (p :: acc)).cons₂ p
      · rw [Bool.not_eq_true] at h1
        simp only [h1, Bool.not_false, if_true]
        exact (ih acc).cons p

theorem foldersFold_acc_not_covered (rs : String → Option FileInfo) :
    ∀ (l : Index) (acc : List String) (q : String), q ∈ foldersFold rs l acc →
      ∀ d ∈ acc, pCovers d q = false := by
  intro l
  induction l with
  | nil =>
    intro acc q hq
    simp [foldersFold] at hq
  | cons pe rest ih =>
    intro acc q hq d hd
    obtain ⟨p, e⟩ := pe
    cases hrs : rs p with
    | none =>
      simp only [foldersFold, hrs] at hq
      exact ih acc q hq d hd
    | some rf =>
      by_cases h1 : rf.isFolder
      · by_cases h2 : e.getModifiedTimestamp < rf.getModifiedTimestamp
        · simp only [foldersFold, hrs, h1, Bool.not_true, Bool.false_eq_true, if_false,
            h2, if_true] at hq
          exact ih acc q hq d hd
        · by_cases h3 : acc.any (fun d => pCovers d p) = true
          · simp only [foldersFold, hrs, h1, Bool.not_true, Bool.false_eq_true, if_false,
              h2, h3, if_true] at hq
            exact ih acc q hq d hd
          · simp only [foldersFold, hrs, h1, Bool.not_true, Bool.false_eq_true, if_false,
              h2, h3, List.mem_cons] at hq
            rcases hq with rfl | hq
            · rw [List.any_eq_true] at h3
              rw [Bool.eq_false_iff]
              intro hc
              exact h3 ⟨d, hd, hc⟩
            · exact ih (p :: acc) q hq d (List.mem_cons_of_mem _ hd)
      · rw [Bool.not_eq_true] at h1
        simp only [foldersFold, hrs, h1, Bool.not_false, if_true] at hq
        exact ih acc q hq d hd

theorem foldersFold_pairwise (rs : String → Option FileInfo) :
    ∀ (l : Index) (acc : List String),
      (foldersFold rs l acc).Pairwise (fun a b => pCovers a b = false) := by
  intro l
  induction l with
  | nil => intro acc; simp [foldersFold]
  | cons pe rest ih =>
    intro acc
    obtain ⟨p, e⟩ := pe
    simp only [foldersFold]
    cases hrs : rs p with
    | none => exact ih acc
    | some rf =>
      by_cases h1 : rf.isFolder
      · simp only [h1, Bool.not_true, Bool.false_eq_true, if_false]
        by_cases h2 : e.getModifiedTimestamp < rf.getModifiedTimestamp
        · simp only [h2, if_true]
          exact ih acc
        · simp only [h2, if_false]
          by_cases h3 : acc.any (fun d => pCovers d p) = true
          · simp only [h3, if_true]
            exact ih acc
          · simp only [h3, Bool.false_eq_true, if_false]
            refine List.Pairwise.cons ?_ (ih (p :: acc))
            intro q hq
            exact foldersFold_acc_not_covered rs rest (p :: acc) q hq p (List.mem_cons_self p _)
      · rw [Bool.not_eq_true] at h1
        simp only [h1, Bool.not_false, if_true]
        exact ih acc

theorem foldersToDelete_sorted (rs : String → Option FileInfo) (folders : Index) :
    (foldersToDelete rs folders).Pairwise (fun a b => depthS a ≤ depthS b) := by
  have hs : (List.insertionSort folderOrder folders).Pairwise folderOrder :=
    List.sorted_insertionSort folderOrder folders
  have hmap : ((List.insertionSort folderOrder folders).map Prod.fst).Pairwise
      (fun a b => depthS a ≤ depthS b) :=
    List.Pairwise.map Prod.fst (fun _ _ h => h) hs
  exact hmap.sublist (foldersFold_sublist rs _ [])

theorem foldersToDelete_pairwise (rs : String → Option FileInfo) (folders : Index) :
    (foldersToDelete rs folders).Pairwise (fun a b => pCovers a b = false) :=
  foldersFold_pairwise rs _ []

/-! ## C8: delete-remote ordering, batching and folder elision -/

/-- C8: every delete-remote application issues all file delete arguments
(in batches of at most 1000) before any folder delete argument, processes
folders in ascending depth order, never queues a folder covered as a POSIX
string prefix by an earlier queued folder, and consequently never queues a
folder that is a descendant of another queued folder. -/
theorem deleteRemote_order (rs : String → Option FileInfo) (idx : Index) :
    ((methodDeleteRemote rs idx).flatten =
      filesToDelete rs (idx.filter fun pe => !pe.2.isFolder) ++
      foldersToDelete rs (idx.filter fun pe => pe.2.isFolder)) ∧
    (∀ b ∈ methodDeleteRemote rs idx, b.length ≤ 1000) ∧
    (foldersToDelete rs (idx.filter fun pe => pe.2.isFolder)).Pairwise
      (fun a b => depthS a ≤ depthS b) ∧
    (foldersToDelete rs (idx.filter fun pe => pe.2.isFolder)).Pairwise
      (fun a b => pCovers a b = false) ∧
    (∀ a b, a ∈ foldersToDelete rs (idx.filter fun pe => pe.2.isFolder) →
      b ∈ foldersToDelete rs (idx.filter fun pe => pe.2.isFolder) →
      pCovers (a ++ "/") b = false) := by
  refine ⟨?_, ?_, foldersToDelete_sorted rs _, foldersToDelete_pairwise rs _, ?_⟩
  · by_cases h : idx.length < 1
    · have : idx = [] := List.eq_nil_of_length_eq_zero (by omega)
      subst this
      simp [methodDeleteRemote, filesToDelete, foldersToDelete, foldersFold]
    · rw [methodDeleteRemote, if_neg h, List.flatten_append, chunks_flatten, chunks_flatten]
  · intro b hb
    rw [methodDeleteRemote] at hb
    by_cases h : idx.length < 1
    · rw [if_pos h] at hb
      cases hb
    · rw [if_neg h, List.mem_append] at hb
      rcases hb with hb | hb
      · have := chunksFuel_mem_length 999 _ _ _ hb
        omega
      · have := chunksFuel_mem_length 999 _ _ _ hb
        omega
  · intro a b ha hb
    rw [Bool.eq_false_iff]
    intro hcov
    obtain ⟨hab, hdep⟩ := pCovers_slash a b hcov
    obtain ⟨i, hi, hia⟩ := List.mem_iff_getElem.mp ha
    obtain ⟨j, hj, hjb⟩ := List.mem_iff_getElem.mp hb
    rcases Nat.lt_trichotomy i j with hij | hij | hij
    · have := (List.pairwise_iff_getElem.mp (foldersToDelete_pairwise rs _)) i j hi hj hij
      rw [hia, hjb] at this
      rw [this] at hab
      cases hab
    · subst hij
      rw [hia] at hjb
      subst hjb
      exact absurd hdep (Nat.lt_irrefl _)
    · have := (List.pairwise_iff_getElem.mp (foldersToDelete_sorted rs _)) j i hj hi hij
      rw [hia, hjb] at this
      omega

/-- C8 witness: with a remote store exposing a folder at every path, a single
staged folder is queued and is not its own proper-prefix descendant. -/
theorem deleteRemote_order_witness :
    pCovers ("a" ++ "/") "a" = false :=
  (deleteRemote_order (fun q => some ⟨q, true, 0, 0, ""⟩)
      [("a", ⟨"a", true, 0, 0, ""⟩)]).2.2.2.2 "a" "a" (by decide) (by decide)

/-! ## C3: the content hash -/

theorem bytesBE_length (n v : Nat) : (bytesBE n v).length = n := by
  induction n generalizing v with
  | zero => rfl
  | succ n ih => simp [bytesBE, ih]

theorem bytesBE_lt (n v : Nat) : ∀ b ∈ bytesBE n v, b < 256 := by
  induction n generalizing v with
  | zero => intro b hb; cases hb
  | succ n ih =>
    intro b hb
    simp only [bytesBE, List.mem_append, List.mem_singleton] at hb
    rcases hb with hb | rfl
    · exact ih _ b hb
    · exact Nat.mod_lt _ (by norm_num)

theorem sha256_length (msg : List Nat) : (sha256 msg).length = 32 := by
  rw [sha256, hash8List]
  simp [bytesBE_length]

theorem sha256_lt (msg : List Nat) : ∀ b ∈ sha256 msg, b < 256 := by
  intro b hb
  rw [sha256, List.mem_flatten] at hb
  obtain ⟨l, hl, hbl⟩ := hb
  rw [List.mem_map] at hl
  obtain ⟨w, _, rfl⟩ := hl
  exact bytesBE_lt 4 w b hbl

theorem getD_mod_inj (l1 l2 : List Nat) (h1 : l1.length = 32) (h2 : l2.length = 32)
    (hb1 : ∀ b ∈ l1, b < 256) (hb2 : ∀ b ∈ l2, b < 256)
    (h : ∀ i : Fin 32, l1.getD i.val 0 % 256 = l2.getD i.val 0 % 256) : l1 = l2 := by
  apply List.ext_getElem (by rw [h1, h2])
  intro i hi1 hi2
  have hv := h ⟨i, by omega⟩
  rw [List.getD_eq_getElem _ _ hi1, List.getD_eq_getElem _ _ hi2] at hv
  have b1 : l1[i] < 256 := hb1 _ (List.getElem_mem hi1)
  have b2 : l2[i] < 256 := hb2 _ (List.getElem_mem hi2)
  rw [Nat.mod_eq_of_lt b1, Nat.mod_eq_of_lt b2] at hv
  exact hv

theorem digest_eq_of_digestFun_eq (c1 c2 : List Nat) (h : digestFun c1 = digestFun c2) :
    dropboxDigest c1 = dropboxDigest c2 :=
  getD_mod_inj _ _ (sha256_length _) (sha256_length _) (sha256_lt _) (sha256_lt _)
    (fun i => congrArg Fin.val (congrFun h i))

/-- C3 counterexample: "two files get the same hash iff they are
byte-identical" is false.  The hash maps byte sequences into 2^256 possible
digests, so among the 256^33 sequences of 33 bytes two distinct ones collide
(pigeonhole); hence hash equality does not imply byte identity. -/
theorem dropbox_hash_collision :
    ¬ (∀ F F' : List Nat, (∀ b ∈ F, b < 256) → (∀ b ∈ F', b < 256) →
        (compute_dropbox_hash F = compute_dropbox_hash F' ↔ F = F')) := by
  intro hclaim
  have hcard : Fintype.card (Fin 32 → Fin 256) < Fintype.card (Fin 33 → Fin 256) := by
    simp only [Fintype.card_fun, Fintype.card_fin]
    norm_num
  obtain ⟨x, y, hxy, hfe⟩ := Fintype.exists_ne_map_eq_of_card_lt
    (fun v : Fin 33 → Fin 256 => digestFun (tupleBytes v)) hcard
  have hbx : ∀ b ∈ tupleBytes x, b < 256 := by
    intro b hb
    rw [tupleBytes, List.mem_ofFn] at hb
    obtain ⟨i, rfl⟩ := hb
    exact (x i).isLt
  have hby : ∀ b ∈ tupleBytes y, b < 256 := by
    intro b hb
    rw [tupleBytes, List.mem_ofFn] at hb
    obtain ⟨i, rfl⟩ := hb
    exact (y i).isLt
  have hdig : dropboxDigest (tupleBytes x) = dropboxDigest (tupleBytes y) :=
    digest_eq_of_digestFun_eq _ _ hfe
  have hhash : compute_dropbox_hash (tupleBytes x) = compute_dropbox_hash (tupleBytes y) := by
    show toHex (dropboxDigest (tupleBytes x)) = toHex (dropboxDigest (tupleBytes y))
    rw [hdig]
  have heq := (hclaim _ _ hbx hby).mp hhash
  rw [tupleBytes, tupleBytes] at heq
  have hfn := List.ofFn_injective heq
  apply hxy
  funext i
  exact Fin.val_injective (congrFun hfn i)

/-- C3 amended: the content hash is the lowercase hex SHA-256 of the
concatenated SHA-256 digests of the consecutive 4 MiB blocks (which partition
the content in order, all blocks full except possibly the last); byte-identical
files always get the same hash (the converse fails: SHA-256 collisions exist by
pigeonhole); and the empty file hashes to the fixed constant. -/
theorem dropbox_hash_spec :
    (∀ content : List Nat,
      compute_dropbox_hash content =
        toHex (sha256 (((chunks 4194304 content).map sha256).flatten)) ∧
      (chunks 4194304 content).flatten = content ∧
      (∀ b ∈ (chunks 4194304 content).dropLast, b.length = 4194304) ∧
      (∀ b ∈ chunks 4194304 content, b.length ≤ 4194304)) ∧
    (∀ F F' : List Nat, F = F' → compute_dropbox_hash F = compute_dropbox_hash F') ∧
    compute_dropbox_hash [] =
      "e3b0c44298fc1c149afbf4c8996fb92427ae41e4649b934ca495991b7852b855" := by
  refine ⟨?_, fun F F' h => by rw [h], by decide⟩
  intro content
  refine ⟨rfl, chunks_flatten _ _, ?_, ?_⟩
  · intro b hb
    rw [chunks] at hb
    have := chunksFuel_dropLast_length _ _ _ b (Nat.le_refl _) hb
    omega
  · intro b hb
    rw [chunks] at hb
    have := chunksFuel_mem_length _ _ _ b hb
    omega

/-- C3 witness: the hash congruence and block partition evaluated on the bytes
of "hello". -/
theorem dropbox_hash_spec_witness :
    compute_dropbox_hash [104, 101, 108, 108, 111] =
      compute_dropbox_hash [104, 101, 108, 108, 111] ∧
    (chunks 4194304 [104, 101, 108, 108, 111]).flatten = [104, 101, 108, 108, 111] :=
  ⟨dropbox_hash_spec.2.1 _ _ rfl, (dropbox_hash_spec.1 [104, 101, 108, 108, 111]).2.1⟩

end PyPiBox
